import Mathlib

/-!
Shallow embedding of the DFA engine in src/src/lib.rs (crate automata_lex).

Modelling conventions:
* The BTreeMap of delta is modelled as an association list of entries
  ((state, symbol), destinations); each Rust entry-or-insert-push on the
  map is the function insertDelta, and BTreeMap get is lookupDelta.
* The Vec of usize history (previous_states) is modelled as a list whose
  head is the top of the stack: Vec push is cons, Vec pop takes the head.
* The assert_eq in M::next (a fatal panic when a looked-up key has more
  than one destination) is modelled by returning Option.none; every
  non-panicking execution returns some.
* usize is modelled as Nat, char as Char, BTreeSet of usize as a list
  of Nat used only through membership (duplicates are irrelevant to
  every observation the code makes of it).
-/

/-- The MaybeState enum of the source: a live state carrying its id, or
the absorbing trap. -/
inductive MaybeState where
  | State (s : Nat)
  | Trap
  deriving DecidableEq, Repr

/-- The struct M of the source: transition table, accepting set, current
position and the history stack. -/
structure M where
  delta : List ((Nat × Char) × List Nat)
  f : List Nat
  state : MaybeState
  previous_states : List MaybeState
  deriving DecidableEq, Repr

/-- One step of the construction loop in M::new: the effect of
delta.entry((state, input)).or_insert(vec![]).push(next_state) on the map. -/
def insertDelta (table : List ((Nat × Char) × List Nat)) (key : Nat × Char)
    (dest : Nat) : List ((Nat × Char) × List Nat) :=
  match table with
  | [] => [(key, [dest])]
  | (k, v) :: rest =>
    if k = key then (k, v ++ [dest]) :: rest
    else (k, v) :: insertDelta rest key dest

/-- The whole construction loop of M::new: fold the flat triple list into
the grouped table. -/
def buildDelta (flat_delta : List (Nat × Char × Nat)) :
    List ((Nat × Char) × List Nat) :=
  flat_delta.foldl (fun table t => insertDelta table (t.1, t.2.1) t.2.2) []

/-- BTreeMap::get on the modelled table. -/
def lookupDelta (table : List ((Nat × Char) × List Nat)) (key : Nat × Char) :
    Option (List Nat) :=
  match table with
  | [] => none
  | (k, v) :: rest => if k = key then some v else lookupDelta rest key

/-- M::new: group the triples, keep the accept list, start at Live 0 with
empty history. -/
def M.new (flat_delta : List (Nat × Char × Nat)) (flat_f : List Nat) : M :=
  { delta := buildDelta flat_delta
    f := flat_f
    state := MaybeState.State 0
    previous_states := [] }

/-- M::is_accepted: trapped is never accepted, a live state is accepted
iff it is in the accepting set. -/
def M.is_accepted (m : M) : Bool :=
  match m.state with
  | MaybeState.Trap => false
  | MaybeState.State s => m.f.contains s

/-- M::is_trapped. -/
def M.is_trapped (m : M) : Bool :=
  match m.state with
  | MaybeState.Trap => true
  | _ => false

/-- M::next: push the pre-step position, then transition if live; none
models the assert_eq panic on a non-singleton destination collection. -/
def M.next (m : M) (input : Char) : Option (M × Bool) :=
  let pushed : M := { m with previous_states := m.state :: m.previous_states }
  match pushed.state with
  | MaybeState.State s =>
    match lookupDelta pushed.delta (s, input) with
    | some next_states =>
      match next_states with
      | [d] =>
        let m2 : M := { pushed with state := MaybeState.State d }
        some (m2, m2.is_accepted)
      | _ => none
    | none =>
      let m2 : M := { pushed with state := MaybeState.Trap }
      some (m2, m2.is_accepted)
  | MaybeState.Trap => some (pushed, pushed.is_accepted)

/-- M::rollback: pop the history if nonempty and restore it as the
position; no-op on empty history. -/
def M.rollback (m : M) : M :=
  match m.previous_states with
  | [] => m
  | prev :: rest => { m with state := prev, previous_states := rest }

/-- M::reset: back to Live 0 with empty history, table and accept set
untouched. -/
def M.reset (m : M) : M :=
  { m with state := MaybeState.State 0, previous_states := [] }

/-- Iterated M::next over a list of symbols, propagating the fatal case. -/
def M.nextMany (m : M) (cs : List Char) : Option M :=
  match cs with
  | [] => some m
  | c :: rest =>
    match m.next c with
    | some (m2, _) => m2.nextMany rest
    | none => none

/-- Iterated M::rollback. -/
def M.rollbackN (m : M) : Nat → M
  | 0 => m
  | k + 1 => (m.rollback).rollbackN k

/-- The observable run from a position: the sequence of post-step
positions and returned booleans for each symbol of the input. -/
def M.runTrace (m : M) (cs : List Char) : Option (List (MaybeState × Bool)) :=
  match cs with
  | [] => some []
  | c :: rest =>
    match m.next c with
    | some (m2, b) => (m2.runTrace rest).map (fun t => (m2.state, b) :: t)
    | none => none

/-- Well-formedness of a table: no key carries more than one destination
(the DFA invariant of the spec). -/
def wellFormedTable (table : List ((Nat × Char) × List Nat)) : Prop :=
  ∀ e ∈ table, e.2.length ≤ 1

instance (table : List ((Nat × Char) × List Nat)) :
    Decidable (wellFormedTable table) := by
  unfold wellFormedTable
  infer_instance

/-- The automaton of the end-to-end scenarios of the spec:
table (0, a) to 0 and (0, b) to 1, accepting set containing 1. -/
def exampleM : M := M.new [(0, 'a', 0), (0, 'b', 1)] [1]

/-- exampleM after stepping on a then b: Live 1 with two history entries. -/
def exampleMab : M := (exampleM.nextMany ['a', 'b']).getD exampleM

/-- exampleM after one step on a, together with the returned boolean. -/
def exampleMa : M × Bool := (exampleM.next 'a').getD (exampleM, false)

/-- exampleM after stepping on z, a symbol with no entry from state 0:
a trapped engine. -/
def trappedM : M := ((exampleM.next 'z').getD (exampleM, false)).1

lemma lookupDelta_mem {table : List ((Nat × Char) × List Nat)}
    {key : Nat × Char} {v : List Nat} (h : lookupDelta table key = some v) :
    (key, v) ∈ table := by
  induction table with
  | nil => simp [lookupDelta] at h
  | cons e rest ih =>
    obtain ⟨k, w⟩ := e
    by_cases hk : k = key
    · subst hk
      simp [lookupDelta] at h
      subst h
      exact List.mem_cons_self _ _
    · simp [lookupDelta, hk] at h
      exact List.mem_cons_of_mem _ (ih h)

lemma insertDelta_ne_nil {table : List ((Nat × Char) × List Nat)}
    {key : Nat × Char} {dest : Nat}
    (h : ∀ e ∈ table, e.2 ≠ []) :
    ∀ e ∈ insertDelta table key dest, e.2 ≠ [] := by
  induction table with
  | nil =>
    intro e he
    simp [insertDelta] at he
    subst he
    simp
  | cons p rest ih =>
    obtain ⟨k, v⟩ := p
    intro e he
    by_cases hk : k = key
    · simp [insertDelta, hk] at he
      rcases he with he | he
      · subst he
        simp
      · exact h e (List.mem_cons_of_mem _ he)
    · simp [insertDelta, hk] at he
      rcases he with he | he
      · subst he
        exact h (k, v) (List.mem_cons_self _ _)
      · exact ih (fun x hx => h x (List.mem_cons_of_mem _ hx)) e he

lemma buildDelta_ne_nil {flat_delta : List (Nat × Char × Nat)} :
    ∀ e ∈ buildDelta flat_delta, e.2 ≠ [] := by
  unfold buildDelta
  suffices h : ∀ (acc : List ((Nat × Char) × List Nat)),
      (∀ e ∈ acc, e.2 ≠ []) →
      ∀ e ∈ flat_delta.foldl
        (fun table t => insertDelta table (t.1, t.2.1) t.2.2) acc, e.2 ≠ [] by
    exact h [] (by simp)
  induction flat_delta with
  | nil => intro acc hacc; simpa using hacc
  | cons t rest ih =>
    intro acc hacc
    exact ih _ (insertDelta_ne_nil hacc)

lemma next_push {m m2 : M} {c : Char} {b : Bool}
    (h : m.next c = some (m2, b)) :
    m2.delta = m.delta ∧ m2.f = m.f ∧
    m2.previous_states = m.state :: m.previous_states ∧ b = m2.is_accepted := by
  obtain ⟨d0, f0, st0, hist0⟩ := m
  cases st0 with
  | Trap =>
    simp only [M.next] at h
    obtain ⟨h1, h2⟩ := Prod.mk.injEq .. ▸ (Option.some.injEq .. ▸ h)
    subst h1
    subst h2
    simp
  | State s =>
    simp only [M.next] at h
    cases hl : lookupDelta d0 (s, c) with
    | none =>
      rw [hl] at h
      simp only [Option.some.injEq, Prod.mk.injEq] at h
      obtain ⟨h1, h2⟩ := h
      subst h1
      subst h2
      simp
    | some next_states =>
      rw [hl] at h
      match next_states with
      | [] => simp at h
      | [d] =>
        simp only [Option.some.injEq, Prod.mk.injEq] at h
        obtain ⟨h1, h2⟩ := h
        subst h1
        subst h2
        simp
      | d :: e :: rest => simp at h

lemma next_rollback {m m2 : M} {c : Char} {b : Bool}
    (h : m.next c = some (m2, b)) : m2.rollback = m := by
  obtain ⟨hd, hf, hp, _⟩ := next_push h
  obtain ⟨d2, f2, st2, hist2⟩ := m2
  simp only at hd hf hp
  subst hd
  subst hf
  subst hp
  simp [M.rollback]

lemma rollbackN_succ_outer (m : M) (k : Nat) :
    m.rollbackN (k + 1) = (m.rollbackN k).rollback := by
  induction k generalizing m with
  | zero => rfl
  | succ n ih =>
    show (m.rollback).rollbackN (n + 1) = _
    rw [ih m.rollback]
    rfl

lemma nextMany_rollbackN {m m2 : M} {cs : List Char}
    (h : m.nextMany cs = some m2) : m2.rollbackN cs.length = m := by
  induction cs generalizing m with
  | nil =>
    simp [M.nextMany] at h
    subst h
    rfl
  | cons c rest ih =>
    simp only [M.nextMany] at h
    cases hn : m.next c with
    | none => rw [hn] at h; simp at h
    | some p =>
      obtain ⟨m1, b⟩ := p
      rw [hn] at h
      simp only [List.length_cons, rollbackN_succ_outer]
      rw [ih h, next_rollback hn]

lemma nextMany_history {m m2 : M} {cs : List Char}
    (h : m.nextMany cs = some m2) :
    m2.previous_states.length = m.previous_states.length + cs.length ∧
    m2.delta = m.delta ∧ m2.f = m.f := by
  induction cs generalizing m with
  | nil =>
    simp [M.nextMany] at h
    subst h
    simp
  | cons c rest ih =>
    simp only [M.nextMany] at h
    cases hn : m.next c with
    | none => rw [hn] at h; simp at h
    | some p =>
      obtain ⟨m1, b⟩ := p
      rw [hn] at h
      obtain ⟨hlen, hd, hf⟩ := ih h
      obtain ⟨hd1, hf1, hp1, _⟩ := next_push hn
      refine ⟨?_, hd.trans hd1, hf.trans hf1⟩
      rw [hlen, hp1]
      simp [List.length_cons]
      omega

lemma next_trapped {m : M} {c : Char} (h : m.state = MaybeState.Trap) :
    m.next c =
      some ({ m with previous_states := m.state :: m.previous_states }, false) := by
  obtain ⟨d0, f0, st0, hist0⟩ := m
  simp only at h
  subst h
  rfl

lemma nextMany_trapped {m m2 : M} {cs : List Char}
    (h : m.state = MaybeState.Trap) (hn : m.nextMany cs = some m2) :
    m2.state = MaybeState.Trap := by
  induction cs generalizing m with
  | nil =>
    simp [M.nextMany] at hn
    subst hn
    exact h
  | cons c rest ih =>
    simp only [M.nextMany, next_trapped h] at hn
    exact ih (m := { m with previous_states := m.state :: m.previous_states }) h hn

/-- C1: from a live position, a step on a symbol whose (state, symbol) key
has exactly one destination moves to Live of that destination; a step on a
symbol with no table entry moves to Trapped; and every non-fatal step
returns the acceptance query of the post-step position. -/
theorem c1_step_transitions (m : M) (s : Nat) (c : Char)
    (h : m.state = MaybeState.State s) :
    (∀ d, lookupDelta m.delta (s, c) = some [d] →
      ∃ m2, m.next c = some (m2, m2.is_accepted) ∧
        m2.state = MaybeState.State d) ∧
    (lookupDelta m.delta (s, c) = none →
      ∃ m2, m.next c = some (m2, m2.is_accepted) ∧
        m2.state = MaybeState.Trap) ∧
    (∀ m2 b, m.next c = some (m2, b) → b = m2.is_accepted) := by
  obtain ⟨d0, f0, st0, hist0⟩ := m
  simp only at h
  subst h
  refine ⟨?_, ?_, ?_⟩
  · intro d hl
    refine ⟨M.mk d0 f0 (MaybeState.State d) (MaybeState.State s :: hist0),
      ?_, rfl⟩
    simp only at hl
    simp only [M.next]
    rw [hl]
  · intro hl
    refine ⟨M.mk d0 f0 MaybeState.Trap (MaybeState.State s :: hist0),
      ?_, rfl⟩
    simp only at hl
    simp only [M.next]
    rw [hl]
  · intro m2 b hn
    exact (next_push hn).2.2.2

/-- C2: after any successfully executed sequence of k steps, k rollbacks
restore the whole pre-sequence engine (position and history), and the
sequence grew the history by exactly k entries. -/
theorem c2_rollback_symmetry (m m2 : M) (cs : List Char)
    (h : m.nextMany cs = some m2) :
    m2.rollbackN cs.length = m ∧
    m2.previous_states.length = m.previous_states.length + cs.length :=
  ⟨nextMany_rollbackN h, (nextMany_history h).1⟩

/-- C3: every non-fatal step pushes exactly the pre-step position onto the
history, so the history grows by one entry per step, trapped or not. -/
theorem c3_step_pushes (m m2 : M) (c : Char) (b : Bool)
    (h : m.next c = some (m2, b)) :
    m2.previous_states = m.state :: m.previous_states ∧
    m2.previous_states.length = m.previous_states.length + 1 := by
  obtain ⟨_, _, hp, _⟩ := next_push h
  refine ⟨hp, ?_⟩
  rw [hp]
  simp

/-- C4: a trapped engine stays trapped under any step and any whole
sequence of steps, the step returns false, and the outcome is the same
for every transition table (no lookup can influence it). -/
theorem c4_trap_absorbing (m : M) (h : m.is_trapped = true) :
    (∀ c, ∃ m2, m.next c = some (m2, false) ∧ m2.is_trapped = true) ∧
    (∀ table c, ∃ m2,
      ({ m with delta := table }).next c = some (m2, false) ∧
      m2.state = MaybeState.Trap) ∧
    (∀ cs m2, m.nextMany cs = some m2 → m2.is_trapped = true) := by
  have hs : m.state = MaybeState.Trap := by
    cases hstate : m.state with
    | State s => rw [M.is_trapped, hstate] at h; simp at h
    | Trap => rfl
  refine ⟨?_, ?_, ?_⟩
  · intro c
    exact ⟨{ m with previous_states := m.state :: m.previous_states },
      next_trapped hs, by simp [M.is_trapped, hs]⟩
  · intro table c
    exact ⟨_, next_trapped (m := { m with delta := table }) hs, hs⟩
  · intro cs m2 hn
    have := nextMany_trapped hs hn
    simp [M.is_trapped, this]

/-- C5: the acceptance query returns false on a trapped engine whatever
the accepting set is, and on Live s it returns true exactly when s is in
the accepting set; it is a pure function of the engine. -/
theorem c5_acceptance_query (m : M) :
    (m.state = MaybeState.Trap → m.is_accepted = false ∧
      ∀ g, ({ m with f := g }).is_accepted = false) ∧
    (∀ s, m.state = MaybeState.State s → (m.is_accepted = true ↔ s ∈ m.f)) := by
  constructor
  · intro hs
    constructor
    · simp [M.is_accepted, hs]
    · intro g
      simp [M.is_accepted, hs]
  · intro s hs
    simp [M.is_accepted, hs]

lemma next_none_iff {m : M} {c : Char}
    (hv : ∀ e ∈ m.delta, e.2 ≠ []) :
    m.next c = none ↔ ∃ s l, m.state = MaybeState.State s ∧
      lookupDelta m.delta (s, c) = some l ∧ 1 < l.length := by
  obtain ⟨d0, f0, st0, hist0⟩ := m
  cases st0 with
  | Trap =>
    constructor
    · intro h
      simp [M.next] at h
    · rintro ⟨s, l, hs, -, -⟩
      exact absurd hs (by simp)
  | State s =>
    cases hl : lookupDelta d0 (s, c) with
    | none =>
      constructor
      · intro h
        simp only [M.next] at h
        rw [hl] at h
        simp at h
      · rintro ⟨t, l, ht, hlk, -⟩
        injection ht with hts
        subst hts
        rw [hl] at hlk
        exact Option.noConfusion hlk
    | some l =>
      have hne : l ≠ [] := hv _ (lookupDelta_mem hl)
      cases l with
      | nil => exact absurd rfl hne
      | cons d rest =>
        cases rest with
        | nil =>
          constructor
          · intro h
            simp only [M.next] at h
            rw [hl] at h
            simp at h
          · rintro ⟨t, l2, ht, hlk, hlen⟩
            injection ht with hts
            subst hts
            rw [hl] at hlk
            injection hlk with hll
            subst hll
            simp at hlen
        | cons e rest2 =>
          constructor
          · intro h
            exact ⟨s, d :: e :: rest2, rfl, hl, by simp⟩
          · intro h
            simp only [M.next]
            rw [hl]

/-- C6: construction succeeds on every input, duplicate keys included,
and just stores the grouped table; the fatal assert of step fires exactly
when the looked-up key has more than one destination, so on a table whose
every key has at most one destination the fatal branch is unreachable. -/
theorem c6_lazy_ambiguity (fd : List (Nat × Char × Nat)) (ff : List Nat)
    (m : M) (c : Char) (hm : m.delta = buildDelta fd) :
    ((M.new fd ff).delta = buildDelta fd ∧ (M.new fd ff).f = ff ∧
      (M.new fd ff).state = MaybeState.State 0 ∧
      (M.new fd ff).previous_states = []) ∧
    (m.next c = none ↔ ∃ s l, m.state = MaybeState.State s ∧
      lookupDelta m.delta (s, c) = some l ∧ 1 < l.length) ∧
    (wellFormedTable m.delta → m.next c ≠ none) := by
  have hv : ∀ e ∈ m.delta, e.2 ≠ [] := by
    rw [hm]
    exact fun e he => buildDelta_ne_nil e he
  refine ⟨⟨rfl, rfl, rfl, rfl⟩, next_none_iff hv, ?_⟩
  intro hwf hnone
  obtain ⟨s, l, hs, hlk, hlen⟩ := (next_none_iff hv).mp hnone
  have h1 : l.length ≤ 1 := hwf _ (lookupDelta_mem hlk)
  omega

/-- C7: reset always yields Live 0 with empty history, leaves the table
and accepting set untouched, and is idempotent. -/
theorem c7_reset (m : M) :
    m.reset.state = MaybeState.State 0 ∧ m.reset.previous_states = [] ∧
    m.reset.delta = m.delta ∧ m.reset.f = m.f ∧ m.reset.reset = m.reset :=
  ⟨rfl, rfl, rfl, rfl, rfl⟩

/-- C8: rollback on an empty history changes nothing and raises no
error. -/
theorem c8_rollback_noop (m : M) (h : m.previous_states = []) :
    m.rollback = m := by
  obtain ⟨d0, f0, st0, hist0⟩ := m
  simp only at h
  subst h
  rfl

/-- C9: from the reset state, the whole observable run over an input
(positions and returned booleans) depends only on the table and the
accepting set: two engines sharing them produce identical runs whatever
their prior positions and histories were. -/
theorem c9_determinism (m1 m2 : M) (cs : List Char)
    (hd : m1.delta = m2.delta) (hf : m1.f = m2.f)
    (hwf : wellFormedTable m1.delta) :
    m1.reset.runTrace cs = m2.reset.runTrace cs ∧
    m1.reset.nextMany cs = m2.reset.nextMany cs := by
  have h : m1.reset = m2.reset := by
    obtain ⟨d1, f1, s1, p1⟩ := m1
    obtain ⟨d2, f2, s2, p2⟩ := m2
    simp only at hd hf
    subst hd
    subst hf
    rfl
  rw [h]
  exact ⟨rfl, rfl⟩

/-- C10: no operation after construction changes the transition table or
the accepting set: step (when non-fatal), rollback and reset all preserve
the delta and f fields, and the queries are functions without effects. -/
theorem c10_table_immutable (m m2 : M) (c : Char) (b : Bool) :
    (m.next c = some (m2, b) → m2.delta = m.delta ∧ m2.f = m.f) ∧
    (m.rollback.delta = m.delta ∧ m.rollback.f = m.f) ∧
    (m.reset.delta = m.delta ∧ m.reset.f = m.f) := by
  refine ⟨fun h => ⟨(next_push h).1, (next_push h).2.1⟩, ?_, ⟨rfl, rfl⟩⟩
  obtain ⟨d0, f0, st0, hist0⟩ := m
  cases hist0 with
  | nil => exact ⟨rfl, rfl⟩
  | cons p rest => exact ⟨rfl, rfl⟩

/-- C1 witness: on the example automaton, stepping b from Live 0 (whose
key (0, b) maps to exactly [1]) reaches Live 1. -/
theorem c1_step_transitions_witness :
    exampleM.state = MaybeState.State 0 ∧
    ∃ m2, exampleM.next 'b' = some (m2, m2.is_accepted) ∧
      m2.state = MaybeState.State 1 :=
  ⟨by decide, (c1_step_transitions exampleM 0 'b' (by decide)).1 1 (by decide)⟩

/-- C2 witness: two steps on a then b, then two rollbacks, restore the
freshly built example automaton, and the history grew by two. -/
theorem c2_rollback_symmetry_witness :
    exampleMab.rollbackN 2 = exampleM ∧
    exampleMab.previous_states.length = exampleM.previous_states.length + 2 :=
  c2_rollback_symmetry exampleM exampleMab ['a', 'b'] (by decide)

/-- C3 witness: the step on a from the example automaton pushes Live 0. -/
theorem c3_step_pushes_witness :
    exampleMa.1.previous_states = exampleM.state :: exampleM.previous_states ∧
    exampleMa.1.previous_states.length = exampleM.previous_states.length + 1 :=
  c3_step_pushes exampleM exampleMa.1 'a' exampleMa.2 (by decide)

/-- C4 witness: the trapped example engine steps to a trapped engine and
returns false. -/
theorem c4_trap_absorbing_witness :
    ∃ m2, trappedM.next 'a' = some (m2, false) ∧ m2.is_trapped = true :=
  (c4_trap_absorbing trappedM (by decide)).1 'a'

/-- C5 witness: the trapped example engine is not accepted, and the
engine at Live 1 is accepted iff 1 is in its accepting set. -/
theorem c5_acceptance_query_witness :
    trappedM.is_accepted = false ∧
    (exampleMab.is_accepted = true ↔ 1 ∈ exampleMab.f) :=
  ⟨((c5_acceptance_query trappedM).1 (by decide)).1,
    (c5_acceptance_query exampleMab).2 1 (by decide)⟩

/-- C6 witness: the example table is well formed, so stepping on b never
reaches the fatal branch. -/
theorem c6_lazy_ambiguity_witness : exampleM.next 'b' ≠ none :=
  (c6_lazy_ambiguity [(0, 'a', 0), (0, 'b', 1)] [1] exampleM 'b'
    (by decide)).2.2 (by decide)

/-- C8 witness: rollback on the freshly built example automaton (empty
history) is a no-op. -/
theorem c8_rollback_noop_witness : exampleM.rollback = exampleM :=
  c8_rollback_noop exampleM (by decide)

/-- C9 witness: the fresh example engine and the one already stepped to
Live 1 produce the same run from reset over a b z. -/
theorem c9_determinism_witness :
    exampleM.reset.runTrace ['a', 'b', 'z'] =
    exampleMab.reset.runTrace ['a', 'b', 'z'] :=
  (c9_determinism exampleM exampleMab ['a', 'b', 'z']
    (by decide) (by decide) (by decide)).1

/-- C10 witness: the step on a leaves the table and accepting set of the
example automaton unchanged. -/
theorem c10_table_immutable_witness :
    exampleMa.1.delta = exampleM.delta ∧ exampleMa.1.f = exampleM.f :=
  (c10_table_immutable exampleM exampleMa.1 'a' exampleMa.2).1 (by decide)
